import Mathlib

/-!
Verification of the attendance backend (`src/backend_app.py`).

The file embeds the decision logic of the backend — the per-day attendance
ledger (`mark_attendance`), the face matcher inside `take_attendance`, the
registration workflow (`register_student`), and the aggregation used by
`get_attendance_graph` and `send_report` — as executable Lean definitions,
and proves the behavioural properties stated about them.

Conventions of the embedding:
* Face encodings are lists of rationals.  The library helper
  `face_recognition.face_distance` computes the Euclidean norm
  `np.linalg.norm(known - check)` and `face_recognition.compare_faces`
  returns `list(face_distance(...) <= tolerance)`; since both the distance
  and the tolerance are nonnegative, `dist <= tol` holds exactly when
  `dist² <= tol²`, so comparisons are carried out on squared distances
  (see `sqDist_le_sq_iff_sqrt_le` for the bridge to the real square root).
* The module-level `attendance_log` is a Python `defaultdict(list)`;
  it is embedded as an association list where a missing key reads as `[]`.
* File upload, image decoding, chart rendering and PDF layout are the
  surrounding system's concern and are not modelled; the embedded
  operations consume the encodings the external extractor produced.
-/

/-- Attendance status: the source stores the strings `"Present"` and
`"Absent"` in the ledger rows. -/
inductive Status where
  | present
  | absent
deriving DecidableEq

/-- One ledger row, `{"status": status, "date": today}`, as appended by
`mark_attendance` (src/backend_app.py line 40). -/
structure Event where
  status : Status
  date : String
deriving DecidableEq

/-- A record of the module-level `students` list (src/backend_app.py lines
64-69).  The stored photo filename is external file handling and is omitted. -/
structure Student where
  id : Nat
  name : String
  encoding : List ℚ
deriving DecidableEq

/-- The module-level `attendance_log = defaultdict(list)`: an association
list from student id to that student's ledger rows. -/
abbrev LogMap := List (Nat × List Event)

/-- Reading `attendance_log[sid]`: a missing key reads as the empty list,
as for a Python `defaultdict(list)`. -/
def logGet (m : LogMap) (sid : Nat) : List Event :=
  (m.lookup sid).getD []

/-- Writing `attendance_log[sid] = rows`: replace the binding in place if
the key exists, otherwise append it (Python dict insertion order). -/
def logSet (m : LogMap) (sid : Nat) (rows : List Event) : LogMap :=
  match m with
  | [] => [(sid, rows)]
  | (k, v) :: rest =>
    if k = sid then (sid, rows) :: rest else (k, v) :: logSet rest sid rows

/-- The per-row test `log["date"] == today and log["status"] == s` used both
by the dedup scan in `mark_attendance` (src line 38) and by the counting in
this development. -/
def isOn (d : String) (s : Status) (e : Event) : Bool :=
  e.date == d && e.status == s

/-- Number of ledger rows for day `d` with status `s`. -/
def countOn (d : String) (s : Status) (log : List Event) : Nat :=
  log.countP (isOn d s)

/-- The body of `mark_attendance` (src lines 35-40) acting on one student's
row list: a Present row is dropped when some row for the same day is already
Present; otherwise the row is appended. -/
def markLog (log : List Event) (status : Status) (today : String) : List Event :=
  if status = Status.present ∧ log.any (isOn today Status.present) then log
  else log ++ [⟨status, today⟩]

/-- `mark_attendance(student_id, status)` (src lines 35-40) on the shared
`attendance_log`; the current day is passed explicitly. -/
def mark_attendance (m : LogMap) (sid : Nat) (status : Status) (today : String) : LogMap :=
  logSet m sid (markLog (logGet m sid) status today)

/-- Squared Euclidean distance between two encodings.
`face_recognition.face_distance` computes `np.linalg.norm(known - check)`;
all threshold comparisons in this development are carried out on squares,
which is equivalent for a nonnegative threshold
(`sqDist_le_sq_iff_sqrt_le`). -/
def sqDist (a b : List ℚ) : ℚ :=
  (a.zipWith (fun x y => (x - y) * (x - y)) b).sum

/-- The square of the default tolerance `0.6` passed at src line 104. -/
def tolSq : ℚ := 9 / 25

/-- `face_recognition.compare_faces(known, enc, tolerance=0.6)`: the library
returns `list(face_distance(known, enc) <= tolerance)`, one Boolean per
known encoding, with a NON-strict comparison against the tolerance. -/
def compare_faces (known : List (List ℚ)) (enc : List ℚ) : List Bool :=
  known.map fun k => decide (sqDist k enc ≤ tolSq)

/-- `matches.index(True)` guarded by `if True in matches` (src lines
106-107): the position of the first student whose stored encoding is within
tolerance of the frame encoding, or `none` when no student is. -/
def matchIndex (students : List Student) (enc : List ℚ) : Option Nat :=
  if true ∈ compare_faces (students.map fun s => s.encoding) enc
  then some (List.indexOf true (compare_faces (students.map fun s => s.encoding) enc))
  else none

/-- The mutable state of the `take_attendance` scan (src lines 97-118): the
`present_students` and `absent_students` name lists and the shared
`attendance_log`. -/
structure AttState where
  presents : List String
  absents : List String
  log : LogMap
deriving DecidableEq

/-- One iteration of the `for face_encoding in face_encodings` loop
(src lines 100-113): find the first student within tolerance; if there is
one and their name is not yet in `present_students`, append the name,
remove it from `absent_students`, and mark the student Present. -/
def processEncoding (students : List Student) (today : String)
    (st : AttState) (enc : List ℚ) : AttState :=
  match matchIndex students enc with
  | none => st
  | some idx =>
    match students[idx]? with
    | none => st
    | some s =>
      if s.name ∈ st.presents then st
      else
        { presents := st.presents ++ [s.name]
          absents :=
            if s.name ∈ st.absents then st.absents.erase s.name else st.absents
          log := mark_attendance st.log s.id Status.present today }

/-- `take_attendance` (src lines 76-123) applied to the encodings extracted
from the uploaded frame: it fails when no students are registered
(src lines 79-80), otherwise scans every frame encoding and finally marks
every student whose name is not in `present_students` as Absent
(src lines 116-118).  Upload handling and image decoding are transport and
are not modelled. -/
def take_attendance (students : List Student) (encodings : List (List ℚ))
    (log : LogMap) (today : String) : Option AttState :=
  if students = [] then none
  else
    let st := encodings.foldl (processEncoding students today)
      ⟨[], students.map fun s => s.name, log⟩
    some { st with
      log := students.foldl
        (fun lg s =>
          if s.name ∈ st.presents then lg
          else mark_attendance lg s.id Status.absent today)
        st.log }

/-- The whole module-level mutable state: the `students` list and the
`attendance_log`. -/
structure ServerState where
  students : List Student
  log : LogMap
deriving DecidableEq

/-- Outcome of a registration request. -/
inductive RegResult where
  | ok (id : Nat)
  | noFaceDetected
deriving DecidableEq

/-- `register_student` (src lines 43-74) after the uploaded photo has been
handed to `get_face_encoding`: a `None` encoding fails with the
"No face detected" error (src lines 59-61) and touches neither `students`
nor `attendance_log`; otherwise the student is appended with
`id = len(students) + 1` (src line 63) and the ledger entry is initialised
to the empty list (src line 70). -/
def register_student (st : ServerState) (name : String)
    (encoding : Option (List ℚ)) : ServerState × RegResult :=
  match encoding with
  | none => (st, RegResult.noFaceDetected)
  | some enc =>
    let sid := st.students.length + 1
    ({ students := st.students ++ [{ id := sid, name := name, encoding := enc }]
       log := logSet st.log sid [] },
     RegResult.ok sid)

/-- The module-level initial state: `students = []` and an empty
`attendance_log` (src lines 25-26). -/
def initialState : ServerState := ⟨[], []⟩

/-- Run a sequence of registration requests (name together with the
encoding the external extractor produced for the uploaded photo, `none`
when no face was detected) from the initial module state. -/
def runRegistrations (reqs : List (String × Option (List ℚ))) : ServerState :=
  reqs.foldl (fun st r => (register_student st r.1 r.2).1) initialState

/-- The summary block of `send_report` (src lines 202-204):
`total_present`, `total_absent` and the attendance percentage
`total_present / max(len(logs), 1) * 100`. -/
def summary (logs : List Event) : Nat × Nat × ℚ :=
  let total_present := (logs.filter fun l => l.status == Status.present).length
  let total_absent := (logs.filter fun l => l.status == Status.absent).length
  (total_present, total_absent,
    (total_present : ℚ) / ((max logs.length 1 : Nat) : ℚ) * 100)

/-- `log["date"][:7]`: the month key of a ledger row — the first seven
characters (`YYYY-MM`) of its date string (src line 145). -/
def monthKey (e : Event) : String := String.mk (e.date.data.take 7)

/-- Bump one counter pair `{"Present": p, "Absent": a}` for a row's
status (src line 146). -/
def bump (c : Nat × Nat) (s : Status) : Nat × Nat :=
  match s with
  | Status.present => (c.1 + 1, c.2)
  | Status.absent => (c.1, c.2 + 1)

/-- One step of the `for log in history` loop building the monthly
`date_status` defaultdict (src lines 143-146): update the counter pair of
the row's month in place, or append a fresh binding for an unseen month
(Python dict insertion order). -/
def bumpMonth (acc : List (String × Nat × Nat)) (e : Event) :
    List (String × Nat × Nat) :=
  match acc with
  | [] => [(monthKey e, bump (0, 0) e.status)]
  | (m, c) :: rest =>
    if m = monthKey e then (m, bump c e.status) :: rest
    else (m, c) :: bumpMonth rest e

/-- The monthly `date_status` table of `get_attendance_graph`
(src lines 143-146). -/
def monthlyTable (history : List Event) : List (String × Nat × Nat) :=
  history.foldl bumpMonth []

/-- The number of rows of `history` that fall in month `m` with status
`s`. -/
def monthCount (m : String) (s : Status) (history : List Event) : Nat :=
  history.countP fun e => monthKey e == m && e.status == s

/-- The monthly series of `get_attendance_graph` (src lines 142-149):
`labels = sorted(date_status.keys())` and, per label, the Present and
Absent counters of `date_status`.  Chart rendering is external; the
function returns the per-label triples the chart is drawn from. -/
def monthlyBuckets (history : List Event) : List (String × Nat × Nat) :=
  let table := monthlyTable history
  let labels := (table.map fun b => b.1).mergeSort fun a b => decide (a ≤ b)
  labels.map fun m => (m, (table.lookup m).getD (0, 0))

theorem logGet_logSet (m : LogMap) (sid : Nat) (rows : List Event) :
    logGet (logSet m sid rows) sid = rows := by
  induction m with
  | nil => simp [logGet, logSet, List.lookup]
  | cons p rest ih =>
    obtain ⟨k, v⟩ := p
    by_cases hk : k = sid
    · subst hk
      simp [logSet, logGet, List.lookup]
    · have hbk : (sid == k) = false := by
        simp only [beq_eq_false_iff_ne]
        exact Ne.symm hk
      simp only [logSet, if_neg hk]
      simp only [logGet, List.lookup, hbk] at ih ⊢
      exact ih

theorem logSet_logSet (m : LogMap) (sid : Nat) (rows rows' : List Event) :
    logSet (logSet m sid rows) sid rows' = logSet m sid rows' := by
  induction m with
  | nil => simp [logSet]
  | cons p rest ih =>
    obtain ⟨k, v⟩ := p
    by_cases hk : k = sid
    · subst hk
      simp [logSet]
    · simp [logSet, hk, ih]

theorem logGet_mark_attendance (m : LogMap) (sid : Nat) (s : Status) (d : String) :
    logGet (mark_attendance m sid s d) sid = markLog (logGet m sid) s d := by
  simp [mark_attendance, logGet_logSet]

theorem markLog_absent (log : List Event) (d : String) :
    markLog log Status.absent d = log ++ [⟨Status.absent, d⟩] := by
  simp [markLog]

theorem any_isOn_markLog_present (log : List Event) (d : String) :
    (markLog log Status.present d).any (isOn d Status.present) = true := by
  by_cases h : log.any (isOn d Status.present) = true
  · rw [markLog, if_pos ⟨rfl, h⟩]
    exact h
  · rw [markLog, if_neg (fun hc => h hc.2)]
    simp [List.any_append, isOn]

theorem markLog_present_idem (log : List Event) (d : String) :
    markLog (markLog log Status.present d) Status.present d
      = markLog log Status.present d := by
  rw [markLog, if_pos ⟨rfl, any_isOn_markLog_present log d⟩]

theorem countOn_markLog_present (log : List Event) (d : String) :
    countOn d Status.present (markLog log Status.present d)
      = max (countOn d Status.present log) 1 := by
  by_cases h : log.any (isOn d Status.present) = true
  · have hpos : 0 < countOn d Status.present log := by
      rcases List.any_eq_true.mp h with ⟨e, he, hon⟩
      exact List.countP_pos_iff.mpr ⟨e, he, hon⟩
    rw [markLog, if_pos ⟨rfl, h⟩]
    omega
  · have hzero : countOn d Status.present log = 0 := by
      simp only [countOn]
      refine List.countP_eq_zero.mpr ?_
      intro e he
      exact fun hon => h (List.any_eq_true.mpr ⟨e, he, hon⟩)
    rw [markLog, if_neg (fun hc => h hc.2)]
    have hone : List.countP (isOn d Status.present) [⟨Status.present, d⟩] = 1 := by
      simp [isOn]
    simp only [countOn, List.countP_append] at hzero ⊢
    omega

theorem countOn_absent_iterate (m : LogMap) (sid : Nat) (d : String) (n : Nat) :
    countOn d Status.absent
        (logGet ((fun mm => mark_attendance mm sid Status.absent d)^[n] m) sid)
      = countOn d Status.absent (logGet m sid) + n := by
  induction n generalizing m with
  | zero => simp
  | succ k ih =>
    rw [Function.iterate_succ_apply, ih, logGet_mark_attendance, markLog_absent]
    have hone : List.countP (isOn d Status.absent) [⟨Status.absent, d⟩] = 1 := by
      simp [isOn]
    simp only [countOn, List.countP_append]
    omega

theorem countOn_present_iterate (m : LogMap) (sid : Nat) (d : String) (n : Nat) :
    countOn d Status.present
        (logGet ((fun mm => mark_attendance mm sid Status.present d)^[n + 1] m) sid)
      = max (countOn d Status.present (logGet m sid)) 1 := by
  induction n generalizing m with
  | zero =>
    simp only [zero_add, Function.iterate_one]
    rw [logGet_mark_attendance]
    exact countOn_markLog_present _ _
  | succ k ih =>
    rw [Function.iterate_succ_apply, ih, logGet_mark_attendance,
      countOn_markLog_present]
    omega

/-- C1: marking a student Present is idempotent per day.  A second
`mark_attendance(id, Present)` call on the same day is a no-op on the whole
ledger, and after one call the number of Present rows of that student for
that day is `max (previous count) 1` — so two calls in a row starting from
a day with no Present row leave exactly one Present row. -/
theorem C1_present_idempotent (m : LogMap) (sid : Nat) (d : String) :
    mark_attendance (mark_attendance m sid Status.present d) sid Status.present d
      = mark_attendance m sid Status.present d ∧
    countOn d Status.present (logGet (mark_attendance m sid Status.present d) sid)
      = max (countOn d Status.present (logGet m sid)) 1 := by
  constructor
  · unfold mark_attendance
    rw [logGet_logSet, markLog_present_idem, logSet_logSet]
  · rw [logGet_mark_attendance]
    exact countOn_markLog_present _ _

/-- C5: Absent rows are never deduplicated while Present rows are.  One
Absent call appends its row unconditionally, `n` Absent calls for the same
student and day add exactly `n` Absent rows, and any positive number of
Present calls leaves `max (previous count) 1` Present rows for that day. -/
theorem C5_absent_accumulates (m : LogMap) (sid : Nat) (d : String) (n : Nat) :
    mark_attendance m sid Status.absent d
      = logSet m sid (logGet m sid ++ [⟨Status.absent, d⟩]) ∧
    countOn d Status.absent
        (logGet ((fun mm => mark_attendance mm sid Status.absent d)^[n] m) sid)
      = countOn d Status.absent (logGet m sid) + n ∧
    countOn d Status.present
        (logGet ((fun mm => mark_attendance mm sid Status.present d)^[n + 1] m) sid)
      = max (countOn d Status.present (logGet m sid)) 1 := by
  refine ⟨?_, countOn_absent_iterate m sid d n, countOn_present_iterate m sid d n⟩
  rw [mark_attendance, markLog_absent]

/-- C9: a registration whose photo yields no face encoding fails with the
"No face detected" error and leaves the shared state untouched: both the
`students` roster and the `attendance_log` are exactly as before the
call. -/
theorem C9_failed_registration_preserves_state (st : ServerState) (name : String) :
    (register_student st name none).1.students = st.students ∧
    (register_student st name none).1.log = st.log ∧
    (register_student st name none).2 = RegResult.noFaceDetected :=
  ⟨rfl, rfl, rfl⟩

theorem sqDist_nonneg (a b : List ℚ) : 0 ≤ sqDist a b := by
  induction a generalizing b with
  | nil => simp [sqDist]
  | cons x xs ih =>
    cases b with
    | nil => simp [sqDist]
    | cons y ys =>
      have h1 : 0 ≤ (x - y) * (x - y) := mul_self_nonneg _
      have h2 : 0 ≤ sqDist xs ys := ih ys
      simp only [sqDist, List.zipWith_cons_cons, List.sum_cons] at h2 ⊢
      linarith

/-- Faithfulness of the squared comparison: for a nonnegative threshold
`t`, the squared test `sqDist a b ≤ t * t` used throughout this file holds
exactly when the Euclidean distance `√(sqDist a b)` computed by
`face_recognition.face_distance` is at most `t`. -/
theorem sqDist_le_sq_iff_sqrt_le (a b : List ℚ) (t : ℚ) (ht : 0 ≤ t) :
    sqDist a b ≤ t * t ↔ Real.sqrt ((sqDist a b : ℚ) : ℝ) ≤ ((t : ℚ) : ℝ) := by
  constructor
  · intro h
    have h' : ((sqDist a b : ℚ) : ℝ) ≤ ((t : ℚ) : ℝ) * ((t : ℚ) : ℝ) := by
      have := (Rat.cast_le (K := ℝ)).mpr h
      push_cast at this ⊢
      linarith
    calc Real.sqrt ((sqDist a b : ℚ) : ℝ)
        ≤ Real.sqrt (((t : ℚ) : ℝ) * ((t : ℚ) : ℝ)) := Real.sqrt_le_sqrt h'
      _ = ((t : ℚ) : ℝ) := Real.sqrt_mul_self (by exact_mod_cast ht)
  · intro h
    have hd : 0 ≤ ((sqDist a b : ℚ) : ℝ) := by exact_mod_cast sqDist_nonneg a b
    have := mul_le_mul h h (Real.sqrt_nonneg _) (by exact_mod_cast ht)
    rw [Real.mul_self_sqrt hd] at this
    exact_mod_cast this

theorem getElem_ne_of_lt_indexOf {α : Type _} [DecidableEq α] (l : List α) (a : α) :
    ∀ j : Nat, ∀ hj : j < l.length, j < List.indexOf a l → l.get ⟨j, hj⟩ ≠ a := by
  induction l with
  | nil => intro j hj; simp at hj
  | cons x xs ih =>
    intro j hj hlt
    cases j with
    | zero =>
      simp only [List.get_eq_getElem, List.getElem_cons_zero]
      intro hx
      rw [List.indexOf_cons_eq xs hx] at hlt
      exact Nat.not_lt_zero _ hlt
    | succ k =>
      by_cases hxa : x = a
      · rw [List.indexOf_cons_eq xs hxa] at hlt
        exact absurd hlt (Nat.not_lt_zero _)
      · rw [List.indexOf_cons_ne xs hxa] at hlt
        have hk : k < xs.length := Nat.lt_of_succ_lt_succ hj
        have := ih k hk (Nat.lt_of_succ_lt_succ hlt)
        simpa using this

/-- C2 counterexample: the claim says a distance exactly equal to the
tolerance must NOT match, but `compare_faces` uses a non-strict comparison:
a frame encoding at Euclidean distance exactly `0.6` from the only roster
encoding (squared distance `9/25 = tolSq`) IS attributed to that student. -/
theorem C2_counterexample :
    sqDist [(3 : ℚ)/5] [0] = tolSq ∧
    matchIndex [{ id := 1, name := "A", encoding := [(3 : ℚ)/5] }] [0] = some 0 := by
  have hd : sqDist [(3 : ℚ)/5] [0] = tolSq := by
    simp [sqDist, tolSq]
    norm_num
  have hcf : compare_faces [[(3 : ℚ)/5]] [0] = [true] := by
    simp [compare_faces, hd]
  refine ⟨hd, ?_⟩
  rw [matchIndex]
  simp only [List.map_cons, List.map_nil]
  rw [hcf]
  simp [List.indexOf_cons_self]

/-- C2 (amended): a frame encoding is attributed to some student exactly
when its minimum squared distance to the roster encodings is at most
`tolSq` — that is, minimum Euclidean distance ≤ tolerance, NON-strict, so
a distance of exactly the tolerance matches and a distance of tolerance
minus epsilon matches as well. -/
theorem C2_match_iff_min_le (students : List Student) (enc : List ℚ) :
    (matchIndex students enc).isSome = true ↔
      (students.map fun s => sqDist s.encoding enc).minimum ≤ (tolSq : WithTop ℚ) := by
  rw [List.minimum_le_coe_iff, matchIndex]
  by_cases h : true ∈ compare_faces (students.map fun s => s.encoding) enc
  · rw [if_pos h]
    simp only [Option.isSome_some, true_iff]
    rcases List.mem_map.mp h with ⟨k, hk, hdec⟩
    rcases List.mem_map.mp hk with ⟨s, hs, rfl⟩
    exact ⟨sqDist s.encoding enc, List.mem_map.mpr ⟨s, hs, rfl⟩,
      of_decide_eq_true hdec⟩
  · rw [if_neg h]
    simp only [Option.isSome_none, Bool.false_eq_true, false_iff]
    rintro ⟨b, hb, hble⟩
    rcases List.mem_map.mp hb with ⟨s, hs, rfl⟩
    exact h (List.mem_map.mpr ⟨s.encoding,
      List.mem_map.mpr ⟨s, hs, rfl⟩, decide_eq_true hble⟩)

/-- C3 counterexample: the claim says the matcher selects the roster entry
with minimum Euclidean distance, but the source takes `matches.index(True)`:
with a roster whose first entry is at squared distance `1/4` and whose
second entry is at squared distance `0` (both within tolerance), the FIRST
entry is selected even though the second is strictly closer. -/
theorem C3_counterexample :
    matchIndex [{ id := 1, name := "A", encoding := [(1 : ℚ)/2] },
                { id := 2, name := "B", encoding := [0] }] [0] = some 0 ∧
    sqDist [(0 : ℚ)] [0] < sqDist [(1 : ℚ)/2] [0] := by
  have hcf : compare_faces [[(1 : ℚ)/2], [0]] [0] = [true, true] := by
    simp [compare_faces, sqDist, tolSq]
    norm_num
  constructor
  · rw [matchIndex]
    simp only [List.map_cons, List.map_nil]
    rw [hcf]
    simp [List.indexOf_cons_self]
  · simp [sqDist]

/-- C3 (amended): first-match-wins.  When `matchIndex` attributes a frame
encoding to the student at position `i`, that student's squared distance is
within `tolSq` and every student at an earlier roster position is strictly
outside the tolerance; the selected entry need not be the globally closest
one (see the counterexample). -/
theorem C3_first_match_wins (students : List Student) (enc : List ℚ) (i : Nat)
    (h : matchIndex students enc = some i) :
    ∃ s, students[i]? = some s ∧ sqDist s.encoding enc ≤ tolSq ∧
      ∀ j, j < i → ∀ s', students[j]? = some s' →
        tolSq < sqDist s'.encoding enc := by
  rw [matchIndex] at h
  by_cases htrue : true ∈ compare_faces (students.map fun s => s.encoding) enc
  · rw [if_pos htrue] at h
    have hi : List.indexOf true (compare_faces (students.map fun s => s.encoding) enc) = i :=
      Option.some.inj h
    have hlen : (compare_faces (students.map fun s => s.encoding) enc).length
        = students.length := by
      simp [compare_faces]
    have hilt : i < students.length := by
      rw [← hi, ← hlen]
      exact List.indexOf_lt_length.mpr htrue
    have hms : (compare_faces (students.map fun s => s.encoding) enc).get
        ⟨i, by rw [hlen]; exact hilt⟩ = true := by
      have := List.getElem_indexOf
        (l := compare_faces (students.map fun s => s.encoding) enc)
        (a := true) (by rw [hi, hlen]; exact hilt)
      simpa [hi] using this
    have hval : ∀ j (hj : j < students.length),
        (compare_faces (students.map fun s => s.encoding) enc).get
          ⟨j, by rw [hlen]; exact hj⟩
          = decide (sqDist (students.get ⟨j, hj⟩).encoding enc ≤ tolSq) := by
      intro j hj
      simp [compare_faces]
    refine ⟨students.get ⟨i, hilt⟩, ?_, ?_, ?_⟩
    · simp [List.getElem?_eq_getElem hilt]
    · have := hval i hilt
      rw [this] at hms
      exact of_decide_eq_true hms
    · intro j hjlt s' hs'
      have hjstud : j < students.length := Nat.lt_trans hjlt hilt
      have hjms : j < (compare_faces (students.map fun s => s.encoding) enc).length := by
        rw [hlen]; exact hjstud
      have hne := getElem_ne_of_lt_indexOf
        (compare_faces (students.map fun s => s.encoding) enc) true j hjms
        (by rw [hi]; exact hjlt)
      rw [hval j hjstud] at hne
      have hs'' : s' = students.get ⟨j, hjstud⟩ := by
        rw [List.getElem?_eq_getElem hjstud] at hs'
        simpa using (Option.some.inj hs').symm
      rw [hs'']
      by_contra hle
      exact hne (decide_eq_true (not_lt.mp hle))
  · rw [if_neg htrue] at h
    exact absurd h (by simp)

theorem C3_first_match_wins_witness :
    matchIndex [{ id := 1, name := "A", encoding := [(0 : ℚ)] }] [0] = some 0 ∧
    (∃ s, ([{ id := 1, name := "A", encoding := [(0 : ℚ)] }] : List Student)[0]? = some s ∧
      sqDist s.encoding [0] ≤ tolSq ∧
      ∀ j, j < 0 → ∀ s',
        ([{ id := 1, name := "A", encoding := [(0 : ℚ)] }] : List Student)[j]? = some s' →
        tolSq < sqDist s'.encoding [0]) := by
  have pf : matchIndex [{ id := 1, name := "A", encoding := [(0 : ℚ)] }] [0] = some 0 := by
    have hcf : compare_faces [[(0 : ℚ)]] [0] = [true] := by
      simp [compare_faces, sqDist, tolSq]
      norm_num
    rw [matchIndex]
    simp only [List.map_cons, List.map_nil]
    rw [hcf]
    simp [List.indexOf_cons_self]
  exact ⟨pf, C3_first_match_wins _ _ 0 pf⟩

/-- C6: `take_attendance` fails exactly when the roster holds zero
students; with a non-empty roster, a frame from which zero encodings were
extracted is not an error: the call succeeds with an empty present list
and every registered name listed absent. -/
theorem C6_empty_roster_and_empty_frame (students : List Student)
    (encodings : List (List ℚ)) (log : LogMap) (today : String) :
    (take_attendance students encodings log today = none ↔ students = []) ∧
    (students ≠ [] →
      ∃ st, take_attendance students [] log today = some st ∧
        st.presents = [] ∧ st.absents = (students.map fun s => s.name)) := by
  constructor
  · constructor
    · intro h
      by_contra hne
      rw [take_attendance, if_neg hne] at h
      exact Option.some_ne_none _ h
    · intro h
      rw [take_attendance, if_pos h]
  · intro hne
    rw [take_attendance, if_neg hne]
    exact ⟨_, rfl, rfl, rfl⟩

theorem register_preserves_ids (st : ServerState) (nm : String)
    (oenc : Option (List ℚ))
    (h : ∀ i (hi : i < st.students.length), (st.students.get ⟨i, hi⟩).id = i + 1) :
    ∀ i (hi : i < (register_student st nm oenc).1.students.length),
      ((register_student st nm oenc).1.students.get ⟨i, hi⟩).id = i + 1 := by
  cases oenc with
  | none => exact h
  | some enc =>
    intro i hi
    simp only [register_student, List.get_eq_getElem] at hi ⊢
    by_cases hlt : i < st.students.length
    · rw [List.getElem_append_left hlt]
      have := h i hlt
      simpa using this
    · have hlen : i < st.students.length + 1 := by simpa using hi
      have hieq : i = st.students.length := by omega
      subst hieq
      rw [List.getElem_append_right (le_refl _)]
      simp

theorem runRegistrations_ids (reqs : List (String × Option (List ℚ))) :
    ∀ i (hi : i < (runRegistrations reqs).students.length),
      ((runRegistrations reqs).students.get ⟨i, hi⟩).id = i + 1 := by
  rw [runRegistrations]
  have base : ∀ i (hi : i < initialState.students.length),
      (initialState.students.get ⟨i, hi⟩).id = i + 1 := by
    intro i hi
    simp [initialState] at hi
  revert base
  generalize initialState = st0
  induction reqs generalizing st0 with
  | nil => intro base; simpa using base
  | cons r t ih =>
    intro base
    rw [List.foldl_cons]
    exact ih _ (register_preserves_ids st0 r.1 r.2 base)

/-- C10: after any sequence of registration requests from the initial
state, the student stored at index `i` has `id = i + 1` (ids are assigned
sequentially from 1 with no gaps), so the positional lookup
`students[student_id - 1]` performed by `send_report` returns exactly the
student whose id equals `student_id`. -/
theorem C10_sequential_ids (reqs : List (String × Option (List ℚ))) (sid : Nat)
    (h1 : 1 ≤ sid) (h2 : sid ≤ (runRegistrations reqs).students.length) :
    (∀ i (hi : i < (runRegistrations reqs).students.length),
      ((runRegistrations reqs).students.get ⟨i, hi⟩).id = i + 1) ∧
    ∃ s, (runRegistrations reqs).students[sid - 1]? = some s ∧ s.id = sid := by
  refine ⟨runRegistrations_ids reqs, ?_⟩
  have hlt : sid - 1 < (runRegistrations reqs).students.length := by omega
  refine ⟨(runRegistrations reqs).students.get ⟨sid - 1, hlt⟩, ?_, ?_⟩
  · rw [List.getElem?_eq_getElem hlt]
    simp
  · rw [runRegistrations_ids reqs (sid - 1) hlt]
    omega

theorem C10_sequential_ids_witness :
    1 ≤ 2 ∧
    2 ≤ (runRegistrations [("A", some [0]), ("B", some [1])]).students.length ∧
    ((∀ i (hi : i < (runRegistrations [("A", some [0]), ("B", some [1])]).students.length),
      ((runRegistrations [("A", some [0]), ("B", some [1])]).students.get ⟨i, hi⟩).id = i + 1) ∧
    ∃ s, (runRegistrations [("A", some [0]), ("B", some [1])]).students[2 - 1]? = some s ∧
      s.id = 2) := by
  have hlen : (runRegistrations [("A", some [0]), ("B", some [1])]).students.length = 2 := by
    rfl
  refine ⟨by omega, by omega, C10_sequential_ids _ 2 (by omega) (by omega)⟩

theorem status_not_present_eq_absent (s : Status) :
    (decide ¬(s == Status.present) = true) = (s == Status.absent) := by
  cases s <;> simp

/-- C7: the summary block of `send_report` counts Present and Absent rows,
these two counts partition the history, the percentage equals
`total_present / max(total_events, 1) * 100`, and the empty history yields
`(0, 0, 0)` with no division-by-zero failure. -/
theorem C7_summary_correct (logs : List Event) :
    (summary logs).1 = logs.countP (fun e => e.status == Status.present) ∧
    (summary logs).2.1 = logs.countP (fun e => e.status == Status.absent) ∧
    (summary logs).1 + (summary logs).2.1 = logs.length ∧
    (summary logs).2.2
      = ((summary logs).1 : ℚ) / ((max logs.length 1 : Nat) : ℚ) * 100 ∧
    summary [] = (0, 0, 0) := by
  refine ⟨?_, ?_, ?_, rfl, ?_⟩
  · simp [summary, List.countP_eq_length_filter]
  · simp [summary, List.countP_eq_length_filter]
  · have hpart := List.length_eq_countP_add_countP
      (fun e : Event => e.status == Status.present) logs
    have hcg : logs.countP (fun e : Event => decide ¬(e.status == Status.present) = true)
        = logs.countP (fun e => e.status == Status.absent) := by
      refine List.countP_congr ?_
      intro e _
      rw [status_not_present_eq_absent]
    simp only [summary, ← List.countP_eq_length_filter]
    omega
  · simp [summary]

theorem processEncoding_inv (students : List Student) (today : String)
    (enc : List ℚ) (st : AttState)
    (hnd : (students.map fun s => s.name).Nodup)
    (hsub : ∀ x ∈ st.presents, x ∈ students.map fun s => s.name)
    (hnodup : st.presents.Nodup)
    (habs : st.absents = (students.map fun s => s.name).filter
      fun n => decide (n ∉ st.presents)) :
    (∀ x ∈ (processEncoding students today st enc).presents,
        x ∈ students.map fun s => s.name) ∧
    (processEncoding students today st enc).presents.Nodup ∧
    (processEncoding students today st enc).absents
      = (students.map fun s => s.name).filter
          fun n => decide (n ∉ (processEncoding students today st enc).presents) := by
  cases hmi : matchIndex students enc with
  | none =>
    simp only [processEncoding, hmi]
    exact ⟨hsub, hnodup, habs⟩
  | some idx =>
    cases hse : students[idx]? with
    | none =>
      simp only [processEncoding, hmi, hse]
      exact ⟨hsub, hnodup, habs⟩
    | some s =>
      by_cases hmem : s.name ∈ st.presents
      · simp only [processEncoding, hmi, hse, if_pos hmem]
        exact ⟨hsub, hnodup, habs⟩
      · simp only [processEncoding, hmi, hse, if_neg hmem]
        have hsmem : s ∈ students := by
          rcases List.getElem?_eq_some_iff.mp hse with ⟨hlt, hval⟩
          rw [← hval]
          exact List.getElem_mem hlt
        have hsname : s.name ∈ students.map fun s => s.name :=
          List.mem_map.mpr ⟨s, hsmem, rfl⟩
        refine ⟨?_, ?_, ?_⟩
        · intro x hx
          rcases List.mem_append.mp hx with hx | hx
          · exact hsub x hx
          · rw [List.mem_singleton.mp hx]
            exact hsname
        · rw [List.nodup_append]
          exact ⟨hnodup, List.nodup_singleton _,
            fun a ha hb => hmem ((List.mem_singleton.mp hb) ▸ ha)⟩
        · have hin : s.name ∈ st.absents := by
            rw [habs]
            exact List.mem_filter.mpr ⟨hsname, decide_eq_true hmem⟩
          rw [if_pos hin, habs]
          have hfnd : ((students.map fun s => s.name).filter
              fun n => decide (n ∉ st.presents)).Nodup :=
            List.Nodup.filter _ hnd
          rw [List.Nodup.erase_eq_filter hfnd, List.filter_filter]
          refine List.filter_congr ?_
          intro x _
          by_cases hxp : x ∈ st.presents
          · have hx1 : (decide (x ∉ st.presents)) = false := by
              simp [hxp]
            have hx2 : (decide (x ∉ st.presents ++ [s.name])) = false := by
              simp [hxp]
            simp [hx1, hx2]
          · by_cases hxs : x = s.name
            · subst hxs
              simp [hxp]
            · have hx1 : (x != s.name) = true := by
                simp [hxs]
              have hx2 : (decide (x ∉ st.presents)) = true := by
                simp [hxp]
              have hx3 : (decide (x ∉ st.presents ++ [s.name])) = true := by
                simp [hxp, hxs]
              simp only [hx1, hx2, hx3, Bool.and_self]

theorem foldl_processEncoding_inv (students : List Student) (today : String)
    (encodings : List (List ℚ)) (st : AttState)
    (hnd : (students.map fun s => s.name).Nodup)
    (hsub : ∀ x ∈ st.presents, x ∈ students.map fun s => s.name)
    (hnodup : st.presents.Nodup)
    (habs : st.absents = (students.map fun s => s.name).filter
      fun n => decide (n ∉ st.presents)) :
    (∀ x ∈ (encodings.foldl (processEncoding students today) st).presents,
        x ∈ students.map fun s => s.name) ∧
    (encodings.foldl (processEncoding students today) st).presents.Nodup ∧
    (encodings.foldl (processEncoding students today) st).absents
      = (students.map fun s => s.name).filter
          fun n => decide
            (n ∉ (encodings.foldl (processEncoding students today) st).presents) := by
  induction encodings generalizing st with
  | nil => exact ⟨hsub, hnodup, habs⟩
  | cons e t ih =>
    rw [List.foldl_cons]
    obtain ⟨h1, h2, h3⟩ := processEncoding_inv students today e st hnd hsub hnodup habs
    exact ih _ h1 h2 h3

/-- C4 counterexample: with two registered students who share the name
"A" (ids 1 and 2) and one frame encoding matching the first, the returned
present and absent lists both contain "A" — present ∩ absent is not empty —
and student 2 is neither marked Present nor Absent in the ledger. -/
theorem C4_counterexample :
    take_attendance
        [{ id := 1, name := "A", encoding := [(0 : ℚ)] },
         { id := 2, name := "A", encoding := [1] }]
        [[0]] [] "2024-01-01"
      = some { presents := ["A"], absents := ["A"],
               log := [(1, [{ status := Status.present, date := "2024-01-01" }])] } := by
  have hcf : compare_faces [[(0 : ℚ)], [1]] [0] = [true, false] := by
    simp [compare_faces, sqDist, tolSq]
    norm_num
  have hmi : matchIndex
      [{ id := 1, name := "A", encoding := [(0 : ℚ)] },
       { id := 2, name := "A", encoding := [1] }] [0] = some 0 := by
    rw [matchIndex]
    simp only [List.map_cons, List.map_nil]
    rw [hcf]
    simp [List.indexOf_cons_self]
  rw [take_attendance]
  rw [if_neg (by simp)]
  have hpe : processEncoding
      [{ id := 1, name := "A", encoding := [(0 : ℚ)] },
       { id := 2, name := "A", encoding := [1] }] "2024-01-01"
      ⟨[], ["A", "A"], []⟩ [0]
      = ⟨["A"], ["A"], [(1, [{ status := Status.present, date := "2024-01-01" }])]⟩ := by
    rw [processEncoding, hmi]
    rfl
  simp only [List.map_cons, List.map_nil, List.foldl_cons, List.foldl_nil]
  rw [hpe]
  rfl

/-- C4 (amended): the partition property holds provided the registered
names are pairwise distinct (the result lists identify students by name).
For every non-empty roster with distinct names, a successful
`take_attendance` run returns a duplicate-free present list, present and
absent names together are exactly the roster names, and no name is in
both lists.  Without the distinctness proviso the property fails, see the
counterexample. -/
theorem C4_partition_of_distinct_names (students : List Student)
    (encodings : List (List ℚ)) (log : LogMap) (today : String) (st : AttState)
    (hnd : (students.map fun s => s.name).Nodup)
    (h : take_attendance students encodings log today = some st) :
    st.presents.Nodup ∧
    (∀ n, (n ∈ st.presents ∨ n ∈ st.absents) ↔
      n ∈ students.map fun s => s.name) ∧
    (∀ n, ¬(n ∈ st.presents ∧ n ∈ st.absents)) := by
  by_cases hne : students = []
  · rw [take_attendance, if_pos hne] at h
    exact absurd h (by simp)
  · rw [take_attendance, if_neg hne] at h
    have hst : st = { encodings.foldl (processEncoding students today)
        ⟨[], students.map fun s => s.name, log⟩ with
      log := students.foldl
        (fun lg s =>
          if s.name ∈ (encodings.foldl (processEncoding students today)
              ⟨[], students.map fun s => s.name, log⟩).presents then lg
          else mark_attendance lg s.id Status.absent today)
        (encodings.foldl (processEncoding students today)
          ⟨[], students.map fun s => s.name, log⟩).log } := (Option.some.inj h).symm
    obtain ⟨h1, h2, h3⟩ := foldl_processEncoding_inv students today encodings
      ⟨[], students.map fun s => s.name, log⟩ hnd
      (by intro x hx; simp at hx)
      List.nodup_nil
      (by simp)
    rw [hst]
    refine ⟨h2, ?_, ?_⟩
    · intro n
      constructor
      · intro hn
        rcases hn with hn | hn
        · exact h1 n hn
        · rw [h3] at hn
          exact (List.mem_filter.mp hn).1
      · intro hn
        by_cases hp : n ∈ (encodings.foldl (processEncoding students today)
            ⟨[], students.map fun s => s.name, log⟩).presents
        · exact Or.inl hp
        · refine Or.inr ?_
          rw [h3]
          exact List.mem_filter.mpr ⟨hn, decide_eq_true hp⟩
    · rintro n ⟨hp, ha⟩
      rw [h3] at ha
      exact (of_decide_eq_true (List.mem_filter.mp ha).2) hp

theorem C4_partition_witness :
    ((([{ id := 1, name := "A", encoding := [(0 : ℚ)] }] : List Student).map
        fun s => s.name).Nodup) ∧
    (take_attendance [{ id := 1, name := "A", encoding := [(0 : ℚ)] }] [] [] "2024-01-01"
      = some (AttState.mk [] ["A"] [(1, [Event.mk Status.absent "2024-01-01"])])) ∧
    ((AttState.mk [] ["A"] [(1, [Event.mk Status.absent "2024-01-01"])]).presents.Nodup ∧
    (∀ n, (n ∈ (AttState.mk [] ["A"] [(1, [Event.mk Status.absent "2024-01-01"])]).presents ∨
        n ∈ (AttState.mk [] ["A"] [(1, [Event.mk Status.absent "2024-01-01"])]).absents) ↔
      n ∈ ([{ id := 1, name := "A", encoding := [(0 : ℚ)] }] : List Student).map
        fun s => s.name) ∧
    (∀ n, ¬(n ∈ (AttState.mk [] ["A"] [(1, [Event.mk Status.absent "2024-01-01"])]).presents ∧
      n ∈ (AttState.mk [] ["A"] [(1, [Event.mk Status.absent "2024-01-01"])]).absents))) := by
  have hnd : ((([{ id := 1, name := "A", encoding := [(0 : ℚ)] }] : List Student).map
      fun s => s.name).Nodup) := by simp
  have h : take_attendance [{ id := 1, name := "A", encoding := [(0 : ℚ)] }] [] []
      "2024-01-01"
      = some (AttState.mk [] ["A"] [(1, [Event.mk Status.absent "2024-01-01"])]) := rfl
  exact ⟨hnd, h, C4_partition_of_distinct_names _ _ _ _ _ hnd h⟩

theorem C6_empty_roster_witness :
    (([{ id := 1, name := "A", encoding := [(0 : ℚ)] }] : List Student) ≠ []) ∧
    ((take_attendance [{ id := 1, name := "A", encoding := [(0 : ℚ)] }] [[5]] []
          "2024-01-01" = none ↔
        ([{ id := 1, name := "A", encoding := [(0 : ℚ)] }] : List Student) = []) ∧
      (([{ id := 1, name := "A", encoding := [(0 : ℚ)] }] : List Student) ≠ [] →
        ∃ st, take_attendance [{ id := 1, name := "A", encoding := [(0 : ℚ)] }] [] []
            "2024-01-01" = some st ∧
          st.presents = [] ∧
          st.absents = (([{ id := 1, name := "A", encoding := [(0 : ℚ)] }] :
            List Student).map fun s => s.name))) :=
  ⟨by simp, C6_empty_roster_and_empty_frame _ [[5]] [] _⟩


theorem lookup_cons_pair (m k : String) (v : Nat × Nat)
    (rest : List (String × Nat × Nat)) :
    List.lookup m ((k, v) :: rest) = if m = k then some v else List.lookup m rest := by
  rw [List.lookup_cons]
  by_cases h : m = k
  · have hb : (m == k) = true := by simp [h]
    rw [hb, if_pos h]
  · have hb : (m == k) = false := by simp [h]
    rw [hb, if_neg h]

theorem mem_keys_bumpMonth (acc : List (String × Nat × Nat)) (e : Event) (m : String) :
    m ∈ (bumpMonth acc e).map (fun b => b.1) ↔
      m ∈ acc.map (fun b => b.1) ∨ m = monthKey e := by
  induction acc with
  | nil =>
    rw [bumpMonth]
    simp [eq_comm]
  | cons p rest ih =>
    obtain ⟨mk, c⟩ := p
    rw [bumpMonth]
    by_cases hm : mk = monthKey e
    · rw [if_pos hm]
      subst hm
      simp only [List.map_cons, List.mem_cons]
      constructor
      · intro hx
        rcases hx with hx | hx
        · exact Or.inr hx
        · exact Or.inl (Or.inr hx)
      · intro hx
        rcases hx with (hx | hx) | hx
        · exact Or.inl hx
        · exact Or.inr hx
        · exact Or.inl hx
    · rw [if_neg hm]
      simp only [List.map_cons, List.mem_cons, ih]
      tauto

theorem lookup_bumpMonth (acc : List (String × Nat × Nat)) (e : Event) (m : String) :
    ((bumpMonth acc e).lookup m).getD (0, 0) =
      if monthKey e = m then bump ((acc.lookup m).getD (0, 0)) e.status
      else (acc.lookup m).getD (0, 0) := by
  induction acc with
  | nil =>
    rw [bumpMonth, List.lookup_nil, lookup_cons_pair]
    by_cases hm : monthKey e = m
    · rw [if_pos hm.symm, if_pos hm]
      simp
    · rw [if_neg (fun hc => hm hc.symm), if_neg hm, List.lookup_nil]
  | cons p rest ih =>
    obtain ⟨mk, c⟩ := p
    rw [bumpMonth]
    by_cases hmk : mk = monthKey e
    · rw [if_pos hmk]
      simp only [lookup_cons_pair]
      by_cases hm : m = mk
      · have hm2 : monthKey e = m := by rw [← hmk, hm]
        rw [if_pos hm, if_pos hm2, if_pos hm]
        simp
      · have hm2 : ¬(monthKey e = m) := by
          rw [← hmk]
          exact fun hc => hm hc.symm
        rw [if_neg hm, if_neg hm2, if_neg hm]
    · rw [if_neg hmk]
      simp only [lookup_cons_pair]
      by_cases hm : m = mk
      · have hm2 : ¬(monthKey e = m) := by
          rw [hm]
          exact fun hc => hmk hc.symm
        rw [if_pos hm, if_neg hm2, if_pos hm]
      · rw [if_neg hm, if_neg hm, ih]

theorem lookup_foldl_bumpMonth (l : List Event) (acc : List (String × Nat × Nat))
    (m : String) :
    ((l.foldl bumpMonth acc).lookup m).getD (0, 0)
      = (((acc.lookup m).getD (0, 0)).1 + monthCount m Status.present l,
         ((acc.lookup m).getD (0, 0)).2 + monthCount m Status.absent l) := by
  induction l generalizing acc with
  | nil => simp [monthCount]
  | cons e t ih =>
    rw [List.foldl_cons, ih, lookup_bumpMonth]
    by_cases hm : monthKey e = m
    · rw [if_pos hm]
      have hb : (monthKey e == m) = true := by
        simp [hm]
      cases hstat : e.status <;>
        simp only [bump, monthCount, List.countP_cons, hb, hstat] <;>
        simp <;> omega
    · rw [if_neg hm]
      have hb : (monthKey e == m) = false := by
        simp only [beq_eq_false_iff_ne]
        exact hm
      simp [monthCount, List.countP_cons, hb]

theorem mem_keys_foldl_bumpMonth (l : List Event) (acc : List (String × Nat × Nat))
    (m : String) :
    m ∈ (l.foldl bumpMonth acc).map (fun b => b.1) ↔
      m ∈ acc.map (fun b => b.1) ∨ ∃ e ∈ l, monthKey e = m := by
  induction l generalizing acc with
  | nil => simp
  | cons e t ih =>
    rw [List.foldl_cons, ih, mem_keys_bumpMonth, List.exists_mem_cons_iff]
    constructor
    · intro hx
      rcases hx with (hx | hx) | hx
      · exact Or.inl hx
      · exact Or.inr (Or.inl hx.symm)
      · exact Or.inr (Or.inr hx)
    · intro hx
      rcases hx with hx | hx | hx
      · exact Or.inl (Or.inl hx)
      · exact Or.inl (Or.inr hx.symm)
      · exact Or.inr hx

theorem pairwise_le_mergeSort_strings (l : List String) :
    (l.mergeSort fun a b => decide (a ≤ b)).Pairwise (· ≤ ·) := by
  have h := @List.sorted_mergeSort String
    (fun a b : String => decide (a ≤ b))
    (fun a b c hab hbc => by
      simp only [decide_eq_true_eq] at hab hbc ⊢
      exact le_trans hab hbc)
    (fun a b => by
      simp only [Bool.or_eq_true, decide_eq_true_eq]
      exact le_total a b)
    l
  exact h.imp fun hab => of_decide_eq_true hab

/-- C8: the monthly view of `get_attendance_graph`.  Bucket labels are the
seven-character `YYYY-MM` month keys of the history's dates, listed in
lexicographically ascending order; each bucket's Present and Absent counts
sum all history rows sharing that year-month. -/
theorem C8_monthly_buckets (history : List Event) :
    ((monthlyBuckets history).map fun b => b.1).Pairwise (· ≤ ·) ∧
    (∀ m, (m ∈ (monthlyBuckets history).map fun b => b.1) ↔
      ∃ e ∈ history, monthKey e = m) ∧
    ∀ b ∈ monthlyBuckets history,
      b.2.1 = monthCount b.1 Status.present history ∧
      b.2.2 = monthCount b.1 Status.absent history := by
  have hkeys : (monthlyBuckets history).map (fun b => b.1)
      = ((monthlyTable history).map fun b => b.1).mergeSort
          fun a b => decide (a ≤ b) := by
    rw [monthlyBuckets, List.map_map]
    have hcomp : ((fun b : String × Nat × Nat => b.1) ∘
        fun m => (m, ((monthlyTable history).lookup m).getD (0, 0))) = id :=
      funext fun m => rfl
    rw [hcomp, List.map_id]
  refine ⟨?_, ?_, ?_⟩
  · rw [hkeys]
    exact pairwise_le_mergeSort_strings _
  · intro m
    rw [hkeys, (List.mergeSort_perm _ _).mem_iff, monthlyTable,
      mem_keys_foldl_bumpMonth]
    simp
  · intro b hb
    rcases List.mem_map.mp hb with ⟨m, _, rfl⟩
    have hv : ((monthlyTable history).lookup m).getD (0, 0)
        = (monthCount m Status.present history, monthCount m Status.absent history) := by
      rw [monthlyTable, lookup_foldl_bumpMonth]
      simp
    simp only [hv]
    trivial
